import Mathlib

/-!
Verification of the saturating integer wrapper `elf_integer<T>`
(src/elfio/elf_integer.hpp).

The C++ type wraps one value of a fixed-width signed integer type `T`
(8/16/32/64-bit two's complement).  We shallowly embed the stored value as
an unbounded `Int` together with the explicit bounds of a `w`-bit signed
type, and translate every member function of the source into a pure Lean
function on the stored value.  C++ `/` and `%` on signed integers truncate
toward zero, which is `Int.tdiv` / `Int.tmod`.
-/

/-- `2^(w-1)`: the magnitude of the minimum value of a `w`-bit
two's-complement signed type. -/
def halfWidthPow (w : Nat) : Int := 2 ^ (w - 1)

/-- `std::numeric_limits<T>::min()` for a `w`-bit signed `T`. -/
def intMin (w : Nat) : Int := -halfWidthPow w

/-- `std::numeric_limits<T>::max()` for a `w`-bit signed `T`. -/
def intMax (w : Nat) : Int := halfWidthPow w - 1

/-- The representable range of a `w`-bit signed `T`; the class invariant of
`elf_integer<T>` is that the stored value lies in this range. -/
def inRange (w : Nat) (v : Int) : Prop := intMin w ≤ v ∧ v ≤ intMax w

instance (w : Nat) (v : Int) : Decidable (inRange w v) :=
  inferInstanceAs (Decidable (_ ∧ _))

/-- Mathematical clamping of `v` to `[intMin w, intMax w]`; the reference
behaviour the saturating operators are claimed to implement. -/
def clamp (w : Nat) (v : Int) : Int :=
  if v > intMax w then intMax w
  else if v < intMin w then intMin w
  else v

/-- `elf_integer<T>::operator+=`: translated from the source line by line;
`value` is the stored value of `*this`, `other` the stored value of the
argument.  Returns the new stored value. -/
def addAssign (w : Nat) (value other : Int) : Int :=
  if other > 0 ∧ value > intMax w - other then intMax w
  else if other < 0 ∧ value < intMin w - other then intMin w
  else value + other

/-- `elf_integer<T>::operator-=`: translated from the source. -/
def subAssign (w : Nat) (value other : Int) : Int :=
  if other > 0 ∧ value < intMin w + other then intMin w
  else if other < 0 ∧ value > intMax w + other then intMax w
  else value - other

/-- `elf_integer<T>::operator*=`: translated from the source.  The overflow
guards compare `value` against a threshold obtained by C++ truncating
division (`Int.tdiv`) before the multiplication is performed. -/
def mulAssign (w : Nat) (value other : Int) : Int :=
  if value = 0 ∨ other = 0 then 0
  else if value > 0 ∧ other > 0 ∧ value > (intMax w).tdiv other then intMax w
  else if value > 0 ∧ other < 0 ∧ value > (intMin w).tdiv other then intMin w
  else if value < 0 ∧ other > 0 ∧ value < (intMin w).tdiv other then intMin w
  else if value < 0 ∧ other < 0 ∧ value < (intMax w).tdiv other then intMax w
  else value * other

/-- `elf_integer<T>::operator/=`: translated from the source. -/
def divAssign (w : Nat) (value other : Int) : Int :=
  if other = 0 then intMax w
  else if value = intMin w ∧ other = -1 then intMax w
  else value.tdiv other

/-- `elf_integer<T>::operator%=`: translated from the source. -/
def modAssign (w : Nat) (value other : Int) : Int :=
  if other = 0 then intMax w
  else if value = intMin w ∧ other = -1 then 0
  else value.tmod other

/-- `elf_integer<T>::operator++()` (prefix): the new stored value. -/
def preInc (w : Nat) (value : Int) : Int :=
  if value < intMax w then value + 1 else value

/-- `elf_integer<T>::operator++(int)` (postfix): returns the pair
(returned copy `tmp`, new stored value). -/
def postInc (w : Nat) (value : Int) : Int × Int :=
  let tmp := value
  (tmp, if value < intMax w then value + 1 else value)

/-- `elf_integer<T>::operator--()` (prefix): the new stored value. -/
def preDec (w : Nat) (value : Int) : Int :=
  if value > intMin w then value - 1 else value

/-- `elf_integer<T>::operator--(int)` (postfix): returns the pair
(returned copy `tmp`, new stored value). -/
def postDec (w : Nat) (value : Int) : Int × Int :=
  let tmp := value
  (tmp, if value > intMin w then value - 1 else value)

/-- `elf_integer<T>::operator-()` (unary minus): operates on a copy `tmp`
of `*this` and returns it, so the operand itself is never modified. -/
def negOp (w : Nat) (value : Int) : Int :=
  let tmp := value
  if tmp ≠ intMin w then -tmp else tmp

/-- Binary `elf_integer<T>::operator+`: `tmp = *this; tmp += other;
return tmp`, exactly as in the source. -/
def addOp (w : Nat) (a b : Int) : Int :=
  let tmp := a
  addAssign w tmp b

/-- Binary `elf_integer<T>::operator-`. -/
def subOp (w : Nat) (a b : Int) : Int :=
  let tmp := a
  subAssign w tmp b

/-- Binary `elf_integer<T>::operator*`. -/
def mulOp (w : Nat) (a b : Int) : Int :=
  let tmp := a
  mulAssign w tmp b

/-- Binary `elf_integer<T>::operator/`. -/
def divOp (w : Nat) (a b : Int) : Int :=
  let tmp := a
  divAssign w tmp b

/-- Binary `elf_integer<T>::operator%`. -/
def modOp (w : Nat) (a b : Int) : Int :=
  let tmp := a
  modAssign w tmp b

/-- Two's-complement narrowing of an arbitrary integer to a `w`-bit signed
value: the unique representative of `v` modulo `2^w` that lies in
`[-2^(w-1), 2^(w-1)-1]`.  This is what the C++ initialisation
`value( other.value )` performs when `T` is narrower than `U` (and the
identity when `v` already fits). -/
def truncToWidth (w : Nat) (v : Int) : Int :=
  let m := v % 2 ^ w
  if m ≥ halfWidthPow w then m - 2 ^ w else m

/-- The converting constructor
`elf_integer<T>::elf_integer(const elf_integer<U>&)`, translated from the
source: the member initialiser `value( other.value )` narrows `other.value`
to `T` first, and only then are the bounds checks run on the already
narrowed `value`. -/
def convCtor (wT : Nat) (v : Int) : Int :=
  let value := truncToWidth wT v
  if value > intMax wT then intMax wT
  else if value < intMin wT then intMin wT
  else value

/-- One `w`-bit arithmetic step of the C++ abstract machine: the exact
result if it is representable in `T`, and `none` when the step has signed
overflow (undefined behaviour). -/
def repOk (w : Nat) (r : Int) : Option Int :=
  if intMin w ≤ r ∧ r ≤ intMax w then some r else none

/-- `elf_integer<T>::operator*=` with every intermediate arithmetic step
routed through `repOk`, mirroring the evaluation order and the
short-circuiting of the C++ guard chain: a quotient threshold is computed
only in the branch whose sign tests already succeeded, and the final
multiplication only when no guard fired. -/
def mulAssignChecked (w : Nat) (value other : Int) : Option Int :=
  if value = 0 ∨ other = 0 then some 0
  else if value > 0 ∧ other > 0 then
    (repOk w ((intMax w).tdiv other)).bind fun q =>
      if value > q then some (intMax w) else repOk w (value * other)
  else if value > 0 ∧ other < 0 then
    (repOk w ((intMin w).tdiv other)).bind fun q =>
      if value > q then some (intMin w) else repOk w (value * other)
  else if value < 0 ∧ other > 0 then
    (repOk w ((intMin w).tdiv other)).bind fun q =>
      if value < q then some (intMin w) else repOk w (value * other)
  else
    (repOk w ((intMax w).tdiv other)).bind fun q =>
      if value < q then some (intMax w) else repOk w (value * other)

/-! Basic facts about the bounds. -/

lemma halfWidthPow_pos (w : Nat) : 0 < halfWidthPow w :=
  pow_pos (by norm_num) _

lemma intMin_eq (w : Nat) : intMin w = -intMax w - 1 := by
  have := halfWidthPow_pos w
  unfold intMin intMax
  omega

lemma intMax_nonneg (w : Nat) : 0 ≤ intMax w := by
  have := halfWidthPow_pos w
  unfold intMax
  omega

lemma two_pow_le_two_mul_halfWidthPow (w : Nat) :
    (2 : Int) ^ w ≤ 2 * halfWidthPow w := by
  unfold halfWidthPow
  cases w with
  | zero => norm_num
  | succ n =>
    simp only [Nat.succ_sub_one]
    rw [pow_succ]
    ring_nf
    omega

/-- The value produced by two's-complement narrowing always lies in the
target range; consequently the bounds checks that the converting
constructor runs after narrowing can never fire. -/
lemma truncToWidth_inRange (w : Nat) (v : Int) : inRange w (truncToWidth w v) := by
  have hp : (0 : Int) < 2 ^ w := pow_pos (by norm_num) w
  have hmlo : 0 ≤ v % 2 ^ w := Int.emod_nonneg v (by omega)
  have hmhi : v % 2 ^ w < 2 ^ w := Int.emod_lt_of_pos v hp
  have h2 := two_pow_le_two_mul_halfWidthPow w
  have hh := halfWidthPow_pos w
  simp only [truncToWidth, inRange, intMin, intMax]
  split_ifs <;> omega

/-- The bounds checks in the converting constructor are dead code: the
constructor returns exactly the narrowed (wrapped) value. -/
lemma convCtor_eq_truncToWidth (w : Nat) (v : Int) :
    convCtor w v = truncToWidth w v := by
  obtain ⟨h1, h2⟩ := truncToWidth_inRange w v
  simp only [convCtor]
  split_ifs <;> omega

/-- C1: the claim states that cross-width conversion clamps the untruncated
source value, so that converting 32-bit `200` into the 8-bit type yields
`127` and `-200` yields `-128`.  The code instead narrows the value to `T`
first and runs the bounds checks on the already-wrapped result, so `200`
becomes `-56` and `-200` becomes `56`, while the claimed clamp of the
untruncated values is `127` resp. `-128`.  Only values that already fit,
such as `42`, convert exactly. -/
theorem convCtor_truncates_before_clamp :
    convCtor 8 200 = -56 ∧ convCtor 8 (-200) = 56 ∧ convCtor 8 42 = 42 ∧
    clamp 8 200 = 127 ∧ clamp 8 (-200) = -128 := by
  decide

/-- C2: the claim states that no operation ever performs an intermediate
computation that overflows the arithmetic type.  In `operator*=`, the guard
of the `value > 0 && other.value < 0` branch evaluates
`std::numeric_limits<T>::min() / other.value`; for `other.value = -1` this
quotient is `2^(w-1)`, which is not representable in `T`, so for 32- and
64-bit `T` the in-range operands `5` and `-1` make the checked model abort
with an overflowing intermediate step. -/
theorem mulAssign_intermediate_overflow :
    inRange 32 5 ∧ inRange 32 (-1) ∧ mulAssignChecked 32 5 (-1) = none ∧
    inRange 64 5 ∧ inRange 64 (-1) ∧ mulAssignChecked 64 5 (-1) = none := by
  decide

/-- C4: `operator+=` computes exactly the clamp of the mathematically exact
sum for all in-range operands. -/
theorem addAssign_eq_clamp (w : Nat) (a b : Int)
    (ha : inRange w a) (hb : inRange w b) :
    addAssign w a b = clamp w (a + b) := by
  obtain ⟨ha1, ha2⟩ := ha
  obtain ⟨hb1, hb2⟩ := hb
  have hmin := intMin_eq w
  have hmax := intMax_nonneg w
  simp only [addAssign, clamp]
  split_ifs <;> omega

/-- C4 witness: in 8-bit, `100 + 100` saturates to `127`. -/
theorem addAssign_eq_clamp_witness :
    inRange 8 100 ∧ addAssign 8 100 100 = 127 :=
  ⟨by decide, (addAssign_eq_clamp 8 100 100 (by decide) (by decide)).trans (by decide)⟩

/-- C5: `operator-=` computes exactly the clamp of the mathematically exact
difference for all in-range operands, including `b = min(T)` (the code
never computes `-min(T)`). -/
theorem subAssign_eq_clamp (w : Nat) (a b : Int)
    (ha : inRange w a) (hb : inRange w b) :
    subAssign w a b = clamp w (a - b) := by
  obtain ⟨ha1, ha2⟩ := ha
  obtain ⟨hb1, hb2⟩ := hb
  have hmin := intMin_eq w
  have hmax := intMax_nonneg w
  simp only [subAssign, clamp]
  split_ifs <;> omega

/-- C5 witness: in 8-bit, `0 - (-128)` saturates to `127` (a case whose
exact difference `128` involves the unrepresentable `-min(T)`). -/
theorem subAssign_eq_clamp_witness :
    inRange 8 0 ∧ inRange 8 (-128) ∧ subAssign 8 0 (-128) = 127 :=
  ⟨by decide, by decide,
    (subAssign_eq_clamp 8 0 (-128) (by decide) (by decide)).trans (by decide)⟩

/-- C8: unary minus negates exactly unless the value is `min(T)`, which is
returned unchanged; the result is always in range, and the operand itself
is untouched (the source negates a copy `tmp`; the embedding is a pure
function of the operand). -/
theorem negOp_spec (w : Nat) (a : Int) (ha : inRange w a) :
    (a ≠ intMin w → negOp w a = -a) ∧
    (a = intMin w → negOp w a = a) ∧
    inRange w (negOp w a) := by
  obtain ⟨ha1, ha2⟩ := ha
  have hmin := intMin_eq w
  have hmax := intMax_nonneg w
  simp only [negOp, inRange]
  split_ifs with h
  · exact ⟨fun _ => rfl, fun he => absurd he h, by omega⟩
  · push_neg at h
    exact ⟨fun hne => absurd h hne, fun _ => rfl, by omega⟩

/-- C8 witness: in 8-bit, `-(-128)` is `-128` unchanged. -/
theorem negOp_spec_witness : inRange 8 (-128) ∧ negOp 8 (-128) = -128 :=
  ⟨by decide, (negOp_spec 8 (-128) (by decide)).2.1 (by decide)⟩

lemma tdiv_lt_iff_lt_mul {c b a : Int} (hc : 0 ≤ c) (hb : 0 < b) :
    c.tdiv b < a ↔ c < a * b := by
  rw [Int.tdiv_eq_ediv hc hb.le, ← not_le, ← not_le]
  exact not_congr (Int.le_ediv_iff_mul_le hb)

/-- C3: `operator*=` computes exactly the clamp of the mathematically exact
product for all in-range operands: `0` when an operand is `0`, `max(T)`
when equal signs overflow upward, `min(T)` when opposite signs overflow
downward, and the exact product otherwise.  The division-computed
thresholds in the source select exactly the products outside the range. -/
theorem mulAssign_eq_clamp (w : Nat) (a b : Int)
    (ha : inRange w a) (hb : inRange w b) :
    mulAssign w a b = clamp w (a * b) := by
  have hmin := intMin_eq w
  have hmax := intMax_nonneg w
  have hh : intMin w = -halfWidthPow w := rfl
  have hhp := halfWidthPow_pos w
  by_cases h0 : a = 0 ∨ b = 0
  · have hz : a * b = 0 := by rcases h0 with h | h <;> simp [h]
    simp only [mulAssign, if_pos h0, clamp, hz]
    rw [if_neg (by omega), if_neg (by omega)]
  · push_neg at h0
    obtain ⟨ha0, hb0⟩ := h0
    simp only [mulAssign, clamp, if_neg (show ¬(a = 0 ∨ b = 0) by tauto)]
    rcases lt_or_gt_of_ne ha0 with haneg | hapos <;>
      rcases lt_or_gt_of_ne hb0 with hbneg | hbpos
    · have hb' : (0:Int) < -b := by omega
      have h1 := Int.tdiv_neg (intMax w) (-b)
      rw [neg_neg] at h1
      have h2 := tdiv_lt_iff_lt_mul (a := -a) hmax hb'
      rw [neg_mul_neg] at h2
      have hcond : a < (intMax w).tdiv b ↔ intMax w < a * b := by
        rw [h1]
        constructor
        · intro h; exact h2.mp (by omega)
        · intro h; have := h2.mpr h; omega
      have hpp : 0 < a * b := mul_pos_of_neg_of_neg haneg hbneg
      by_cases hsat : a < (intMax w).tdiv b
      · rw [if_neg (by omega), if_neg (by omega), if_neg (by omega),
           if_pos ⟨haneg, hbneg, hsat⟩, if_pos (hcond.mp hsat)]
      · have hple : a * b ≤ intMax w := by
          have := hcond; omega
        rw [if_neg (by omega), if_neg (by omega), if_neg (by omega),
           if_neg (show ¬(a < 0 ∧ b < 0 ∧ a < (intMax w).tdiv b) by tauto),
           if_neg (by omega), if_neg (by omega)]
    · have h1 : (intMin w).tdiv b = -((halfWidthPow w).tdiv b) := by
        rw [hh, Int.neg_tdiv]
      have h2 := tdiv_lt_iff_lt_mul (a := -a) (le_of_lt hhp) hbpos
      have hcond : a < (intMin w).tdiv b ↔ a * b < intMin w := by
        rw [h1, hh]
        constructor
        · intro h
          have := h2.mp (by omega)
          nlinarith
        · intro h
          have : halfWidthPow w < -a * b := by nlinarith
          have := h2.mpr this
          omega
      have hpn : a * b < 0 := mul_neg_of_neg_of_pos haneg hbpos
      by_cases hsat : a < (intMin w).tdiv b
      · rw [if_neg (by omega), if_neg (by omega),
           if_pos ⟨haneg, hbpos, hsat⟩, if_neg (by omega),
           if_pos (hcond.mp hsat)]
      · have hple : intMin w ≤ a * b := by
          have := hcond; omega
        rw [if_neg (by omega), if_neg (by omega),
           if_neg (show ¬(a < 0 ∧ b > 0 ∧ a < (intMin w).tdiv b) by tauto),
           if_neg (by omega), if_neg (by omega), if_neg (by omega)]
    · have hb' : (0:Int) < -b := by omega
      have h1 : (intMin w).tdiv b = (halfWidthPow w).tdiv (-b) := by
        rw [hh, Int.neg_tdiv, Int.tdiv_neg]
      have h2 := tdiv_lt_iff_lt_mul (a := a) (le_of_lt hhp) hb'
      have hcond : (intMin w).tdiv b < a ↔ a * b < intMin w := by
        rw [h1, hh, h2]
        constructor
        · intro h; nlinarith
        · intro h; nlinarith
      have hpn : a * b < 0 := mul_neg_of_pos_of_neg hapos hbneg
      by_cases hsat : a > (intMin w).tdiv b
      · rw [if_neg (by omega),
           if_pos ⟨hapos, hbneg, hsat⟩, if_neg (by omega),
           if_pos (hcond.mp hsat)]
      · have hple : intMin w ≤ a * b := by
          have := hcond; omega
        rw [if_neg (by omega),
           if_neg (show ¬(a > 0 ∧ b < 0 ∧ a > (intMin w).tdiv b) by tauto),
           if_neg (by omega), if_neg (by omega), if_neg (by omega), if_neg (by omega)]
    · have hcond : (intMax w).tdiv b < a ↔ intMax w < a * b :=
        tdiv_lt_iff_lt_mul hmax hbpos
      have hpp : 0 < a * b := mul_pos hapos hbpos
      by_cases hsat : a > (intMax w).tdiv b
      · rw [if_pos ⟨hapos, hbpos, hsat⟩, if_pos (hcond.mp hsat)]
      · have hple : a * b ≤ intMax w := by
          have := hcond; omega
        rw [if_neg (show ¬(a > 0 ∧ b > 0 ∧ a > (intMax w).tdiv b) by tauto),
           if_neg (by omega), if_neg (by omega), if_neg (by omega),
           if_neg (by omega), if_neg (by omega)]

/-- C3 witness: in 8-bit, `100 * 100` saturates to `127` and `-100 * 100`
saturates to `-128`. -/
theorem mulAssign_eq_clamp_witness :
    inRange 8 100 ∧ mulAssign 8 100 100 = 127 ∧ mulAssign 8 (-100) 100 = -128 :=
  ⟨by decide,
    (mulAssign_eq_clamp 8 100 100 (by decide) (by decide)).trans (by decide),
    (mulAssign_eq_clamp 8 (-100) 100 (by decide) (by decide)).trans (by decide)⟩

lemma tdiv_inRange (w : Nat) {a b : Int} (ha : inRange w a) (hb : inRange w b)
    (hb0 : b ≠ 0) (hnot : ¬(a = intMin w ∧ b = -1)) : inRange w (a.tdiv b) := by
  have hmin := intMin_eq w
  have hmax := intMax_nonneg w
  have hh : intMin w = -halfWidthPow w := rfl
  have hH : halfWidthPow w = ((2 ^ (w - 1) : Nat) : Int) := by
    unfold halfWidthPow
    push_cast
    ring
  obtain ⟨ha1, ha2⟩ := ha
  obtain ⟨hb1, hb2⟩ := hb
  rcases eq_or_ne b 1 with rfl | hbone
  · rw [Int.tdiv_one]
    exact ⟨ha1, ha2⟩
  rcases eq_or_ne b (-1) with rfl | hbm1
  · have hane : a ≠ intMin w := fun h => hnot ⟨h, rfl⟩
    have he : a.tdiv (-1) = -a := by
      rw [Int.tdiv_neg, Int.tdiv_one]
    rw [he]
    constructor <;> omega
  · have hb2' : 2 ≤ b.natAbs := by
      rcases Int.natAbs_eq b with h | h <;> omega
    have habs : (a.tdiv b).natAbs = a.natAbs / b.natAbs := Int.natAbs_tdiv a b
    have hMinN : intMin w = -((2 ^ (w - 1) : Nat) : Int) := by
      rw [hh, hH]
    have hMaxN : intMax w = ((2 ^ (w - 1) : Nat) : Int) - 1 := by
      unfold intMax
      rw [hH]
    have haK : a.natAbs ≤ 2 ^ (w - 1) := by omega
    have hbK : b.natAbs ≤ 2 ^ (w - 1) := by omega
    have hq : a.natAbs / b.natAbs ≤ 2 ^ (w - 1) / 2 :=
      Nat.div_le_div haK hb2' (by norm_num)
    have hK2 : 2 ≤ 2 ^ (w - 1) := le_trans hb2' hbK
    have hfin : (a.tdiv b).natAbs ≤ 2 ^ (w - 1) / 2 := habs ▸ hq
    clear hq habs
    constructor <;> omega

/-- C6: `operator/=` absorbs every error case instead of signalling:
divisor `0` yields `max(T)`, the overflowing `min(T) / -1` yields `max(T)`,
and every other case yields the exact C++ (truncated toward zero) quotient,
which is always representable, so the stored value stays in range. -/
theorem divAssign_spec (w : Nat) (a b : Int)
    (ha : inRange w a) (hb : inRange w b) :
    (b = 0 → divAssign w a b = intMax w) ∧
    (a = intMin w ∧ b = -1 → divAssign w a b = intMax w) ∧
    (b ≠ 0 → ¬(a = intMin w ∧ b = -1) → divAssign w a b = a.tdiv b) ∧
    inRange w (divAssign w a b) := by
  have hmin := intMin_eq w
  have hmax := intMax_nonneg w
  refine ⟨?_, ?_, ?_, ?_⟩
  · intro h
    simp [divAssign, h]
  · rintro ⟨h1, h2⟩
    simp [divAssign, h1, h2]
  · intro hb0 hnot
    simp only [divAssign]
    rw [if_neg hb0, if_neg hnot]
  · by_cases hb0 : b = 0
    · simp only [divAssign, if_pos hb0]
      constructor <;> omega
    by_cases hnot : a = intMin w ∧ b = -1
    · simp only [divAssign, if_neg hb0, if_pos hnot]
      constructor <;> omega
    · simp only [divAssign, if_neg hb0, if_neg hnot]
      exact tdiv_inRange w ha hb hb0 hnot

/-- C6 witness: in 8-bit, `5 / 0` saturates to `127` and `-128 / -1`
saturates to `127`. -/
theorem divAssign_spec_witness :
    divAssign 8 5 0 = 127 ∧ divAssign 8 (-128) (-1) = 127 :=
  ⟨((divAssign_spec 8 5 0 (by decide) (by decide)).1 rfl).trans (by decide),
    ((divAssign_spec 8 (-128) (-1) (by decide) (by decide)).2.1
      ⟨by decide, rfl⟩).trans (by decide)⟩

lemma neg_tmod' (a b : Int) : (-a).tmod b = -(a.tmod b) := by
  have h1 := Int.tmod_add_tdiv a b
  have h2 := Int.tmod_add_tdiv (-a) b
  rw [Int.neg_tdiv] at h2
  have h3 : b * -(a.tdiv b) = -(b * a.tdiv b) := by ring
  rw [h3] at h2
  omega

lemma tmod_inRange (w : Nat) (a : Int) {b : Int} (hb : inRange w b)
    (hb0 : b ≠ 0) : inRange w (a.tmod b) := by
  obtain ⟨hb1, hb2⟩ := hb
  have hmin := intMin_eq w
  have hmax := intMax_nonneg w
  have key : ∀ x : Int, 0 ≤ x → 0 ≤ x.tmod b ∧ x.tmod b ≤ intMax w := by
    intro x hx
    refine ⟨Int.tmod_nonneg b hx, ?_⟩
    rcases lt_or_gt_of_ne hb0 with hneg | hpos
    · have h := Int.tmod_lt_of_pos x (show (0:Int) < -b by omega)
      rw [Int.tmod_neg] at h
      omega
    · have h := Int.tmod_lt_of_pos x hpos
      omega
  rcases le_or_lt 0 a with hax | hax
  · have := key a hax
    constructor <;> omega
  · have h2 := key (-a) (by omega)
    have h3 : (-a).tmod b = -(a.tmod b) := neg_tmod' a b
    constructor <;> omega

/-- C7: `operator%=` yields `max(T)` for divisor `0`, exactly `0` for
`min(T) % -1` (which is also the exact truncated remainder, so no
saturation takes place), and the exact C++ remainder otherwise; the stored
value always stays in range. -/
theorem modAssign_spec (w : Nat) (a b : Int)
    (ha : inRange w a) (hb : inRange w b) :
    (b = 0 → modAssign w a b = intMax w) ∧
    (a = intMin w ∧ b = -1 → modAssign w a b = 0 ∧ a.tmod b = 0) ∧
    (b ≠ 0 → ¬(a = intMin w ∧ b = -1) → modAssign w a b = a.tmod b) ∧
    inRange w (modAssign w a b) := by
  have hmin := intMin_eq w
  have hmax := intMax_nonneg w
  refine ⟨?_, ?_, ?_, ?_⟩
  · intro h
    simp [modAssign, h]
  · rintro ⟨h1, h2⟩
    refine ⟨by simp [modAssign, h1, h2], ?_⟩
    rw [h2, Int.tmod_neg, Int.tmod_one]
  · intro hb0 hnot
    simp only [modAssign]
    rw [if_neg hb0, if_neg hnot]
  · by_cases hb0 : b = 0
    · simp only [modAssign, if_pos hb0]
      constructor <;> omega
    by_cases hnot : a = intMin w ∧ b = -1
    · simp only [modAssign, if_neg hb0, if_pos hnot]
      constructor <;> omega
    · simp only [modAssign, if_neg hb0, if_neg hnot]
      exact tmod_inRange w a hb hb0

/-- C7 witness: in 8-bit, `-128 % -1` is exactly `0`. -/
theorem modAssign_spec_witness : modAssign 8 (-128) (-1) = 0 :=
  ((modAssign_spec 8 (-128) (-1) (by decide) (by decide)).2.1
    ⟨by decide, rfl⟩).1

/-- C9: increment adds one exactly below `max(T)` and is a no-op at
`max(T)`; decrement subtracts one exactly above `min(T)` and is a no-op at
`min(T)`; the postfix forms mutate the stored value identically; and any
number of increments of `max(T)` (resp. decrements of `min(T)`) leaves the
bound unchanged. -/
theorem incDec_spec (w : Nat) (a : Int) (ha : inRange w a) :
    (a < intMax w → preInc w a = a + 1) ∧
    (a = intMax w → preInc w a = a) ∧
    (intMin w < a → preDec w a = a - 1) ∧
    (a = intMin w → preDec w a = a) ∧
    (postInc w a).2 = preInc w a ∧
    (postDec w a).2 = preDec w a ∧
    (∀ n : Nat, (preInc w)^[n] (intMax w) = intMax w) ∧
    (∀ n : Nat, (preDec w)^[n] (intMin w) = intMin w) := by
  refine ⟨?_, ?_, ?_, ?_, rfl, rfl, ?_, ?_⟩
  · intro h; simp [preInc, h]
  · intro h; simp [preInc, h]
  · intro h; simp [preDec, h]
  · intro h
    have := intMin_eq w
    have := intMax_nonneg w
    simp only [preDec, h]
    rw [if_neg (by omega)]
  · intro n
    refine Function.iterate_fixed ?_ n
    simp [preInc]
  · intro n
    refine Function.iterate_fixed ?_ n
    simp [preDec]

/-- C9 witness: in 8-bit, incrementing `127` three times stays `127`,
decrementing `-128` three times stays `-128`, and one increment of `127`
returns `127`. -/
theorem incDec_spec_witness :
    inRange 8 127 ∧ (preInc 8)^[3] (intMax 8) = intMax 8 ∧
    (preDec 8)^[3] (intMin 8) = intMin 8 ∧ preInc 8 127 = 127 :=
  ⟨by decide,
    (incDec_spec 8 127 (by decide)).2.2.2.2.2.2.1 3,
    (incDec_spec 8 127 (by decide)).2.2.2.2.2.2.2 3,
    (incDec_spec 8 127 (by decide)).2.1 (by decide)⟩

/-- C10: every non-mutating binary operator is exactly copy-then-
compound-assign, returning a new value; the operands are untouched, the
embedding of each operator being a pure function of their stored values. -/
theorem binaryOps_copy_then_compound (w : Nat) (a b : Int) :
    addOp w a b = addAssign w a b ∧ subOp w a b = subAssign w a b ∧
    mulOp w a b = mulAssign w a b ∧ divOp w a b = divAssign w a b ∧
    modOp w a b = modAssign w a b :=
  ⟨rfl, rfl, rfl, rfl, rfl⟩
